import Mathlib

/-!
Verification of the decentralization core (`rs/decentralization/src/nakamoto/mod.rs`).

A shallow embedding of the Nakamoto-score core of the repository, together
with proofs and refutations of the specification's claims about it.

Modelling conventions:
* Rust `usize` values are modelled as `Nat`.  The kernel uses
  `saturating_add`, so no wrap-around is observable; `Nat` addition is an
  exact model of the saturating computation on inputs below `2^64`.
* Rust `f64` values that occur in a `NakamotoScore` are modelled exactly:
  every coefficient is a `usize` cast (`Nat` as `ℚ`), `avg_linear` is a
  rational, `min` is the fold of finite rationals starting from `+∞`
  (type `EF` below), and `avg_log2 = (Σᵢ log₂ cᵢ) / 6` is represented
  order-isomorphically by the pair "is some cᵢ zero / product of the cᵢ"
  (type `LogVal` below), since `x ↦ log₂ x / 6` is strictly monotone and
  `Σ log₂ cᵢ = log₂ (Π cᵢ)`, with `log₂ 0 = -∞` absorbing the sum.
  The comparisons the code performs on these values are thereby modelled
  as exact real comparisons.
* Rust `BTreeMap<Feature, V>` is modelled as `Feature → Option V`;
  iteration order of a `BTreeMap` is the `Ord` order of `Feature`, which is
  declaration order, the same order as `Feature::variants()`
  (`Feature.variants` below).
* The `counter::Counter` hash map yields its (value, count) pairs in an
  unspecified order; the model enumerates them in first-occurrence order
  (`List.dedup`).  The kernel sorts its input, so this choice is
  immaterial, which is also proved (`nakamoto_perm`).
-/

/-- The closed enumeration of decentralization features, in declaration
order (= `Ord` order = `Feature::variants()` order). -/
inductive Feature where
  | NodeProvider
  | DataCenter
  | DataCenterOwner
  | City
  | Country
  | Continent
deriving DecidableEq

/-- The list `Feature::variants()`: all features in declaration order. -/
def Feature.variants : List Feature :=
  [.NodeProvider, .DataCenter, .DataCenterOwner, .City, .Country, .Continent]

theorem Feature.mem_variants (f : Feature) : f ∈ Feature.variants := by
  cases f <;> simp [Feature.variants]

/-- The `NodeFeatures` record: a map from features to string values
(`feature_map: HashMap<Feature, String>`). -/
structure NodeFeatures where
  feature_map : Feature → Option String

/-- The lookup `NodeFeatures::get`. -/
def NodeFeatures.get (nf : NodeFeatures) (feature : Feature) : Option String :=
  nf.feature_map feature

/-- A node (`crate::network::Node`): an identity, its features, and the
`dfinity_owned` flag. -/
structure Node where
  id : Nat
  features : NodeFeatures
  dfinity_owned : Bool

/-- Extended value of a non-NaN `f64`: `-∞`, a finite (rational) value, or
`+∞`.  Every non-NaN `f64` is one of these. -/
inductive EF where
  | negInf
  | fin (q : ℚ)
  | posInf
deriving DecidableEq

/-- Three-way comparison on `ℚ`, the model of `f64::partial_cmp` on finite
values. -/
def cmpQ (a b : ℚ) : Ordering :=
  if a < b then .lt else if a = b then .eq else .gt

/-- Three-way comparison on `Nat`, the model of `usize::cmp`. -/
def cmpN (a b : Nat) : Ordering :=
  if a < b then .lt else if a = b then .eq else .gt

/-- Comparison on non-NaN `f64` values: `-∞ < finite < +∞`. -/
def EF.cmp : EF → EF → Ordering
  | .negInf, .negInf => .eq
  | .negInf, .fin _ => .lt
  | .negInf, .posInf => .lt
  | .fin _, .negInf => .gt
  | .fin a, .fin b => cmpQ a b
  | .fin _, .posInf => .lt
  | .posInf, .posInf => .eq
  | .posInf, .negInf => .gt
  | .posInf, .fin _ => .gt

/-- The value `avg_log2 = (Σᵢ log₂ cᵢ) / 6` of a score, represented
order-isomorphically: `negInf` when some coefficient is `0`
(`log₂ 0 = -∞`), otherwise the product `Πᵢ cᵢ` of the (natural-number)
coefficients, since comparing `(Σ log₂ cᵢ)/6` is comparing `Π cᵢ`. -/
inductive LogVal where
  | negInf
  | val (p : Nat)
deriving DecidableEq

/-- Comparison of two `avg_log2` values (`f64::partial_cmp`, exact). -/
def LogVal.cmp : LogVal → LogVal → Ordering
  | .negInf, .negInf => .eq
  | .negInf, .val _ => .lt
  | .val _, .negInf => .gt
  | .val a, .val b => cmpN a b

/-- Comparison of `Option<usize>` values (its `PartialOrd`): `None` is less than `Some _`. -/
def cmpOptN : Option Nat → Option Nat → Ordering
  | none, none => .eq
  | none, some _ => .lt
  | some _, none => .gt
  | some a, some b => cmpN a b

/-- The `NakamotoScore` value object.  `coefficients` and
`controlled_nodes` are the two `BTreeMap`s; the three aggregates are
stored fields, derived by the constructor. -/
structure NakamotoScore where
  coefficients : Feature → Option ℚ
  controlled_nodes : Feature → Option Nat
  avg_linear : ℚ
  avg_log2 : LogVal
  min : EF

namespace NakamotoScore

/-- The walk of `NakamotoScore::nakamoto`: traverse the descending-sorted
actor counts, accumulating `sum_actors` and `sum_nodes`, stopping at the
first step whose accumulated `sum_nodes` exceeds the threshold. -/
def nakamotoWalk : List Nat → Nat → Nat → Nat → Nat × Nat
  | [], sum_actors, sum_nodes, _ => (sum_actors, sum_nodes)
  | actor_nodes :: rest, sum_actors, sum_nodes, threshold =>
    let sum_actors := sum_actors + 1
    let sum_nodes := sum_nodes + actor_nodes
    if threshold < sum_nodes then (sum_actors, sum_nodes)
    else nakamotoWalk rest sum_actors sum_nodes threshold

/-- The kernel `NakamotoScore::nakamoto`.  Given the node count
of each actor, return `(coefficient, controlled_nodes)`. -/
def nakamoto (values : List Nat) : Nat × Nat :=
  let total_subnet_nodes := values.sum
  let max_malicious_nodes := total_subnet_nodes / 3
  nakamotoWalk (values.insertionSort (· ≥ ·)) 0 0 max_malicious_nodes

/-- The per-feature list of feature values over a slice of nodes, in node
order (the `features_to_nodes_map` entry for one feature). -/
def featureValues (slice : List NodeFeatures) (feature : Feature) :
    List (Option String) :=
  slice.map (fun nf => nf.get feature)

/-- The `counter::Counter` step: the count of each distinct value in the
list, enumerated in first-occurrence order.  All equal values — including
all `none`s — fall into a single bucket. -/
def counterCounts (l : List (Option String)) : List Nat :=
  l.dedup.map (fun v => l.countP (fun x => decide (x = v)))

/-- The per-feature kernel result for a slice of nodes. -/
def featureNakamoto (slice : List NodeFeatures) (feature : Feature) :
    Nat × Nat :=
  nakamoto (counterCounts (featureValues slice feature))

/-- The `min` field: fold the (finite) coefficient values with `min`,
starting from `+∞` (`fold(1.0 / 0.0, ...)` in the source; the
`is_finite` guard is the identity here because every coefficient is a
`usize` cast). -/
def minFold (values : List ℚ) : EF :=
  values.foldl (fun acc x => if (EF.fin x).cmp acc = .lt then .fin x else acc)
    .posInf

/-- The constructor `NakamotoScore::new_from_slice_node_features`: build the score of a
slice of `NodeFeatures`. -/
def new_from_slice_node_features (slice : List NodeFeatures) :
    NakamotoScore :=
  let coefN : Feature → Nat := fun f => (featureNakamoto slice f).1
  let values : List Nat := Feature.variants.map coefN
  { coefficients := fun f => some ((coefN f : ℚ))
    controlled_nodes := fun f => some (featureNakamoto slice f).2
    avg_linear := (values.map (fun n => (n : ℚ))).sum /
      (Feature.variants.length : ℚ)
    avg_log2 := if 0 ∈ values then .negInf else .val values.prod
    min := minFold (values.map (fun n => (n : ℚ))) }

/-- The constructor `NakamotoScore::new_from_nodes`: build the score of a slice of nodes
from their features. -/
def new_from_nodes (nodes : List Node) : NakamotoScore :=
  new_from_slice_node_features (nodes.map (fun n => n.features))

/-- One step of the `min_by` fold: keep the earlier entry unless the new
entry's value is strictly smaller. -/
def minStep (acc : Option (Feature × ℚ)) (e : Feature × ℚ) :
    Option (Feature × ℚ) :=
  match acc with
  | none => some e
  | some m => if e.2 < m.2 then some e else some m

/-- The `min_by` of `control_power_critical_features`: the first entry of
minimal value, `none` on the empty list. -/
def minEntry (entries : List (Feature × ℚ)) : Option (Feature × ℚ) :=
  entries.foldl minStep none

/-- The entries of the `coefficients` map, in iteration (= `Feature`)
order. -/
def coeffEntries (s : NakamotoScore) : List (Feature × ℚ) :=
  Feature.variants.filterMap (fun f => (s.coefficients f).map (fun q => (f, q)))

/-- The method `NakamotoScore::control_power_critical_features`: the total number of
nodes controlled on the features whose coefficient attains the score's
minimum; `None` when the `coefficients` map is empty. -/
def control_power_critical_features (s : NakamotoScore) : Option Nat :=
  match minEntry s.coeffEntries with
  | none => none
  | some m =>
    some (((s.coeffEntries.filter (fun e => e.2 ≤ m.2)).map
      (fun e => (s.controlled_nodes e.1).getD 0)).sum)

/-- The count of coefficients strictly below a threshold (the
below-average count of comparison step 2; the threshold is always
`self.avg_linear`). -/
def countBelow (coefficients : Feature → Option ℚ) (threshold : ℚ) : Nat :=
  (Feature.variants.filterMap coefficients).countP (fun c => c < threshold)

/-- Step 3 of `PartialOrd::partial_cmp` for `NakamotoScore`: iterate the
features in order; a feature on which either side's coefficient (missing
entries defaulting to `1.0`) is below `self.avg_linear` is compared, and
the first non-equal comparison decides. -/
def cmpFeaturesBelowAvg (self other : NakamotoScore) :
    List Feature → Ordering
  | [] => .eq
  | feature :: rest =>
    let c1 : ℚ := (self.coefficients feature).getD 1
    let c2 : ℚ := (other.coefficients feature).getD 1
    if c1 < self.avg_linear ∨ c2 < self.avg_linear then
      let cmp := cmpQ c2 c1
      if cmp = .eq then cmpFeaturesBelowAvg self other rest else cmp
    else cmpFeaturesBelowAvg self other rest

/-- The comparison `PartialOrd::partial_cmp` for `NakamotoScore`.  On the NaN-free value
domain modelled here the comparison never fails, so it returns `Ordering`
directly (`Some` of the Rust result). -/
def cmpScores (self other : NakamotoScore) : Ordering :=
  let s1 := self.min.cmp other.min
  if s1 ≠ .eq then s1 else
  let c1 := countBelow self.coefficients self.avg_linear
  let c2 := countBelow other.coefficients self.avg_linear
  let s2 := cmpN c2 c1
  if s2 ≠ .eq then s2 else
  let s3 := cmpFeaturesBelowAvg self other Feature.variants
  if s3 ≠ .eq then s3 else
  let s4 := cmpOptN other.control_power_critical_features
    self.control_power_critical_features
  if s4 ≠ .eq then s4 else
  let s5 := self.avg_log2.cmp other.avg_log2
  if s5 ≠ .eq then s5 else
  cmpQ self.avg_linear other.avg_linear

/-- The equality `PartialEq::eq` for `NakamotoScore`: the two `BTreeMap`s match
entry-for-entry. -/
def scoreEq (a b : NakamotoScore) : Bool :=
  Feature.variants.all (fun f => a.coefficients f == b.coefficients f) &&
  Feature.variants.all (fun f => a.controlled_nodes f == b.controlled_nodes f)

end NakamotoScore

/-! Basic facts about the comparison primitives. -/

theorem cmpQ_refl (a : ℚ) : cmpQ a a = .eq := by
  simp [cmpQ]

theorem cmpN_refl (a : Nat) : cmpN a a = .eq := by
  simp [cmpN]

theorem EF_cmp_refl (a : EF) : a.cmp a = .eq := by
  cases a <;> simp [EF.cmp, cmpQ_refl]

theorem LogVal_cmp_refl (a : LogVal) : a.cmp a = .eq := by
  cases a <;> simp [LogVal.cmp, cmpN_refl]

theorem cmpOptN_refl (a : Option Nat) : cmpOptN a a = .eq := by
  cases a <;> simp [cmpOptN, cmpN_refl]

namespace NakamotoScore

/-! Structural facts about the kernel walk. -/

/-- The walk consumes some prefix of length `k`: it stops at the first
position whose accumulated node count exceeds the threshold, or at the end
of the list. -/
theorem nakamotoWalk_spec (l : List Nat) (sa sn thr : Nat) (hsn : sn ≤ thr) :
    ∃ k, k ≤ l.length ∧ (l ≠ [] → 1 ≤ k) ∧
      nakamotoWalk l sa sn thr = (sa + k, sn + (l.take k).sum) ∧
      (thr < sn + (l.take k).sum ∨ k = l.length) ∧
      (∀ j, j < k → sn + (l.take j).sum ≤ thr) := by
  induction l generalizing sa sn with
  | nil =>
    refine ⟨0, by simp, by simp, by simp [nakamotoWalk], Or.inr rfl, ?_⟩
    intro j hj; omega
  | cons x rest ih =>
    by_cases h : thr < sn + x
    · refine ⟨1, by simp, fun _ => le_refl 1, ?_, ?_, ?_⟩
      · simp [nakamotoWalk, h]
      · left; simpa using h
      · intro j hj
        have : j = 0 := by omega
        subst this; simpa using hsn
    · have hsn' : sn + x ≤ thr := Nat.not_lt.mp h
      obtain ⟨k, hk_len, _, hk_eq, hk_br, hk_min⟩ := ih (sa + 1) (sn + x) hsn'
      refine ⟨k + 1, by simpa using Nat.succ_le_succ hk_len,
        fun _ => Nat.succ_le_succ (Nat.zero_le k), ?_, ?_, ?_⟩
      · have : nakamotoWalk (x :: rest) sa sn thr =
            nakamotoWalk rest (sa + 1) (sn + x) thr := by
          simp [nakamotoWalk, h]
        rw [this, hk_eq]
        simp [List.take_succ_cons]
        omega
      · rcases hk_br with hb | hb
        · left; simp [List.take_succ_cons]; omega
        · right; simp [hb]
      · intro j hj
        cases j with
        | zero => simpa using hsn
        | succ j =>
          have := hk_min j (by omega)
          simp [List.take_succ_cons]
          omega

/-- The kernel is a function of the multiset of actor counts. -/
theorem nakamoto_perm (l1 l2 : List Nat) (hp : l1.Perm l2) :
    nakamoto l1 = nakamoto l2 := by
  have hsum : l1.sum = l2.sum := hp.sum_eq
  have hsorted : l1.insertionSort (· ≥ ·) = l2.insertionSort (· ≥ ·) := by
    refine List.eq_of_perm_of_sorted ?_ (List.sorted_insertionSort _ _)
      (List.sorted_insertionSort _ _)
    exact (List.perm_insertionSort _ l1).trans
      (hp.trans (List.perm_insertionSort _ l2).symm)
  simp [nakamoto, hsum, hsorted]

/-- Lists of values that are all at least one have length at most their
sum. -/
theorem length_le_sum_of_pos :
    ∀ l : List Nat, (∀ x ∈ l, 0 < x) → l.length ≤ l.sum := by
  intro l h
  induction l with
  | nil => simp
  | cons x rest ih =>
    have hx := h x (by simp)
    have := ih (fun y hy => h y (by simp [hy]))
    simp only [List.length_cons, List.sum_cons]
    omega

/-- C4: for positive actor counts with positive total, the kernel result
`(coef, controlled_nodes)` satisfies `1 ≤ coef ≤ #actors`,
`controlled_nodes ≥ coef`, and `controlled_nodes > total / 3` (floor
division). -/
theorem c4_nakamoto_bounds (values : List Nat)
    (hpos : ∀ v ∈ values, 0 < v) (htot : 0 < values.sum) :
    1 ≤ (nakamoto values).1 ∧ (nakamoto values).1 ≤ values.length ∧
      (nakamoto values).1 ≤ (nakamoto values).2 ∧
      values.sum / 3 < (nakamoto values).2 := by
  set s := values.insertionSort (· ≥ ·) with hs
  have hsp : s.Perm values := List.perm_insertionSort _ values
  have hss : s.sum = values.sum := hsp.sum_eq
  have hsl : s.length = values.length := hsp.length_eq
  have hne : values ≠ [] := by
    intro h; rw [h] at htot; simp at htot
  have hsne : s ≠ [] := by
    intro h
    have := hsl
    rw [h] at this
    exact hne (List.eq_nil_of_length_eq_zero this.symm)
  have hspos : ∀ v ∈ s, 0 < v := fun v hv => hpos v (hsp.mem_iff.mp hv)
  obtain ⟨k, hk_len, hk_pos, hk_eq, hk_br, _⟩ :=
    nakamotoWalk_spec s 0 0 (values.sum / 3) (Nat.zero_le _)
  have hnak : nakamoto values = (k, (s.take k).sum) := by
    simpa [nakamoto] using hk_eq
  have hk1 : 1 ≤ k := hk_pos hsne
  have htk_len : (s.take k).length = k := by
    simp [List.length_take, Nat.min_eq_left hk_len]
  have htk_pos : ∀ v ∈ s.take k, 0 < v :=
    fun v hv => hspos v (List.take_subset k s hv)
  have hk_le_sum : k ≤ (s.take k).sum := by
    have := length_le_sum_of_pos (s.take k) htk_pos
    omega
  refine ⟨by rw [hnak]; exact hk1, by rw [hnak]; omega,
    by rw [hnak]; exact hk_le_sum, ?_⟩
  rw [hnak]
  rcases hk_br with hb | hb
  · simpa using hb
  · have : (s.take k).sum = values.sum := by
      rw [hb, List.take_length, hss]
    rw [this]
    exact Nat.div_lt_self htot (by norm_num)

/-- C4 witness: the bounds at the concrete input `[1, 2, 3]`. -/
theorem c4_witness :
    1 ≤ (nakamoto [1, 2, 3]).1 ∧ (nakamoto [1, 2, 3]).1 ≤ [1, 2, 3].length ∧
      (nakamoto [1, 2, 3]).1 ≤ (nakamoto [1, 2, 3]).2 ∧
      [1, 2, 3].sum / 3 < (nakamoto [1, 2, 3]).2 :=
  c4_nakamoto_bounds [1, 2, 3] (by decide) (by decide)

/-- C2: the kernel returns exactly the listed results on the literal
scenario inputs of `computes_nakamoto_scores`. -/
theorem c2_kernel_scenarios :
    nakamoto [] = (0, 0) ∧ nakamoto [1] = (1, 1) ∧ nakamoto [3] = (1, 3) ∧
      nakamoto [1, 2, 3] = (1, 3) ∧ nakamoto [3, 2, 1] = (1, 3) ∧
      nakamoto [1, 2, 1, 2, 1] = (2, 4) ∧
      nakamoto [1, 1, 2, 3, 5, 1] = (1, 5) ∧
      nakamoto [1, 1, 2, 3, 5, 1, 2] = (2, 8) ∧
      nakamoto (List.replicate 13 1) = (5, 5) := by
  decide

end NakamotoScore

namespace NakamotoScore

/-! The kernel under incrementing one actor's count (claim C6). -/

/-- Sorting a list headed by an upper bound of its tail keeps the head in
front. -/
theorem insertionSort_cons_of_max (x : Nat) (l : List Nat)
    (h : ∀ y ∈ l, y ≤ x) :
    (x :: l).insertionSort (· ≥ ·) = x :: l.insertionSort (· ≥ ·) :=
  List.insertionSort_cons _ (fun b hb => h b hb)

/-- Sorting a list with a maximal element `x` puts (one occurrence of)
`x` in front of the sorted remainder. -/
theorem insertionSort_eq_max_cons (l : List Nat) (x : Nat) (hx : x ∈ l)
    (hmax : ∀ y ∈ l, y ≤ x) :
    l.insertionSort (· ≥ ·) = x :: (l.erase x).insertionSort (· ≥ ·) := by
  have hperm : l.Perm (x :: l.erase x) := List.perm_cons_erase hx
  have h1 : l.insertionSort (· ≥ ·) = (x :: l.erase x).insertionSort (· ≥ ·) := by
    refine List.eq_of_perm_of_sorted ?_ (List.sorted_insertionSort _ _)
      (List.sorted_insertionSort _ _)
    exact (List.perm_insertionSort _ l).trans
      (hperm.trans (List.perm_insertionSort _ _).symm)
  rw [h1]
  exact insertionSort_cons_of_max x (l.erase x)
    (fun y hy => hmax y (List.erase_subset x l hy))

/-- C6 (amended): incrementing the count of a maximal actor never
increases the Nakamoto coefficient. -/
theorem c6_amended_max_increment (l : List Nat) (x : Nat)
    (_hpos : ∀ y ∈ l, 0 < y) (hx : x ∈ l) (hmax : ∀ y ∈ l, y ≤ x) :
    (nakamoto ((x + 1) :: l.erase x)).1 ≤ (nakamoto l).1 := by
  set t := (l.erase x).insertionSort (· ≥ ·) with ht
  have hsort_old : l.insertionSort (· ≥ ·) = x :: t :=
    insertionSort_eq_max_cons l x hx hmax
  have hsort_new : ((x + 1) :: l.erase x).insertionSort (· ≥ ·) = (x + 1) :: t :=
    insertionSort_cons_of_max (x + 1) (l.erase x)
      (fun y hy => Nat.le_succ_of_le (hmax y (List.erase_subset x l hy)))
  have hsum_old : l.sum = x + (l.erase x).sum := by
    have := (List.perm_cons_erase hx).sum_eq
    simpa using this
  have hsum_new : ((x + 1) :: l.erase x).sum = l.sum + 1 := by
    simp [hsum_old]; omega
  set T := l.sum with hT
  have hthr : (T + 1) / 3 ≤ T / 3 + 1 := by omega
  obtain ⟨ko, hko_len, hko_pos, hko_eq, hko_br, _⟩ :=
    nakamotoWalk_spec (x :: t) 0 0 (T / 3) (Nat.zero_le _)
  obtain ⟨kn, hkn_len, _, hkn_eq, _, hkn_min⟩ :=
    nakamotoWalk_spec ((x + 1) :: t) 0 0 ((T + 1) / 3) (Nat.zero_le _)
  have hold : nakamoto l = (ko, ((x :: t).take ko).sum) := by
    simp only [nakamoto]
    rw [hsort_old]
    simpa using hko_eq
  have hnew : nakamoto ((x + 1) :: l.erase x) =
      (kn, (((x + 1) :: t).take kn).sum) := by
    simp only [nakamoto]
    rw [hsort_new, hsum_new]
    simpa using hkn_eq
  rw [hold, hnew]
  show kn ≤ ko
  by_contra hcon
  push_neg at hcon
  rcases hko_br with hb | hb
  · -- the old walk broke at position `ko`; the new prefix sum there is one
    -- larger, so it exceeds the new threshold as well, contradicting the
    -- minimality of `kn`.
    have hko1 : 1 ≤ ko := hko_pos (by simp)
    obtain ⟨m, rfl⟩ : ∃ m, ko = m + 1 := ⟨ko - 1, by omega⟩
    have hpre : (((x + 1) :: t).take (m + 1)).sum =
        ((x :: t).take (m + 1)).sum + 1 := by
      simp [List.take_succ_cons]
      omega
    have := hkn_min (m + 1) hcon
    simp only [Nat.zero_add] at this hb
    omega
  · -- the old walk ran off the end; the new walk cannot be longer than the
    -- list.
    have : kn ≤ ko := by
      simp only [List.length_cons] at hkn_len hb
      omega
    omega

/-- C6 counterexample: for the input `[2, 1, 1, 1]`, incrementing the
second actor's count (1 becomes 2) raises the coefficient from 1 to 2. -/
theorem c6_counterexample :
    [2, 1, 1, 1].set 1 (1 + 1) = [2, 2, 1, 1] ∧
      (nakamoto ([2, 1, 1, 1].set 1 (1 + 1))).1 = 2 ∧
      (nakamoto [2, 1, 1, 1]).1 = 1 ∧
      ¬((nakamoto ([2, 1, 1, 1].set 1 (1 + 1))).1 ≤ (nakamoto [2, 1, 1, 1]).1) := by
  decide

/-- C6 witness: incrementing the maximal actor of `[2, 1]`. -/
theorem c6_witness :
    (nakamoto ((2 + 1) :: [2, 1].erase 2)).1 ≤ (nakamoto [2, 1]).1 :=
  c6_amended_max_increment [2, 1] 2 (by decide) (by decide) (by decide)

end NakamotoScore

namespace NakamotoScore

/-! Permutation invariance of the score construction (claim C7). -/

/-- The counter of a list depends only on its multiset of elements, up to
reordering of the (value, count) pairs. -/
theorem counterCounts_perm (l1 l2 : List (Option String)) (hp : l1.Perm l2) :
    (counterCounts l1).Perm (counterCounts l2) := by
  unfold counterCounts
  have hfun : (fun v => l2.countP (fun x => decide (x = v))) =
      fun v => l1.countP (fun x => decide (x = v)) :=
    funext fun v => (hp.countP_eq _).symm
  rw [hfun]
  exact hp.dedup.map _

/-- The per-feature kernel result depends only on the multiset of node
features. -/
theorem featureNakamoto_perm (s1 s2 : List NodeFeatures)
    (hp : s1.Perm s2) (f : Feature) :
    featureNakamoto s1 f = featureNakamoto s2 f :=
  nakamoto_perm _ _ (counterCounts_perm _ _ (hp.map _))

/-- The constructed score depends only on the multiset of node features. -/
theorem new_from_slice_perm (s1 s2 : List NodeFeatures) (hp : s1.Perm s2) :
    new_from_slice_node_features s1 = new_from_slice_node_features s2 := by
  have hfn : ∀ f, featureNakamoto s1 f = featureNakamoto s2 f :=
    featureNakamoto_perm s1 s2 hp
  simp only [new_from_slice_node_features, hfn]

/-- C7: the score is a pure function of the multiset of feature values:
the kernel is permutation invariant, permuted slices of `NodeFeatures`
yield equal scores, and a score built from nodes depends only on the
multiset of their features (not on identity, order, or `dfinity_owned`). -/
theorem c7_score_pure_function :
    (∀ l1 l2 : List Nat, l1.Perm l2 → nakamoto l1 = nakamoto l2) ∧
    (∀ s1 s2 : List NodeFeatures, s1.Perm s2 →
      new_from_slice_node_features s1 = new_from_slice_node_features s2) ∧
    (∀ ns1 ns2 : List Node,
      (ns1.map Node.features).Perm (ns2.map Node.features) →
      new_from_nodes ns1 = new_from_nodes ns2) :=
  ⟨nakamoto_perm, new_from_slice_perm,
    fun _ _ hp => new_from_slice_perm _ _ hp⟩

/-- C7 witness: the kernel at the permuted pair `[1, 2]`, `[2, 1]`. -/
theorem c7_witness : nakamoto [1, 2] = nakamoto [2, 1] :=
  c7_score_pure_function.1 [1, 2] [2, 1] (by decide)

/-! Concrete node feature sets used for the counterexamples. -/

/-- A node with no recorded feature values at all. -/
def nfEmpty : NodeFeatures := ⟨fun _ => none⟩

/-- A node whose only recorded feature value is `Country = "a"`. -/
def nfCountryOnlyA : NodeFeatures :=
  ⟨fun f => if f = .Country then some "a" else none⟩

/-- C3 (code behaviour at the failing input): with three nodes missing the
`Country` value and one node with `Country = "a"`, the counter coalesces
the three missing values into a single actor of size 3, so the per-feature
input is `[3, 1]` and the coefficient is 1; with per-node-unique unknowns,
as the claim requires, the input would be `[1, 1, 1, 1]` and the
coefficient 2. -/
theorem c3_missing_values_coalesce :
    counterCounts
        (featureValues [nfEmpty, nfEmpty, nfEmpty, nfCountryOnlyA] .Country) =
      [3, 1] ∧
      featureNakamoto [nfEmpty, nfEmpty, nfEmpty, nfCountryOnlyA] .Country =
        (1, 3) ∧
      nakamoto [1, 1, 1, 1] = (2, 2) := by
  constructor
  · rfl
  · exact ⟨by decide, by decide⟩

/-- C5 counterexample: for the empty slice the six coefficients are all 0
and finite, so the `min` fold returns 0, not `+∞`, and `avg_log2` is
`log₂ 0 = -∞`, not 0 (which would be `LogVal.val 1`). -/
theorem c5_counterexample :
    (new_from_slice_node_features []).min = EF.fin 0 ∧
      EF.fin (0 : ℚ) ≠ EF.posInf ∧
      (new_from_slice_node_features []).avg_log2 = LogVal.negInf ∧
      LogVal.negInf ≠ LogVal.val 1 := by
  refine ⟨by decide, by decide, by decide, by decide⟩

/-- C5 (amended): for the empty slice every coefficient is 0, `min` is 0,
`avg_linear` is 0, and `avg_log2` is `-∞`. -/
theorem c5_amended :
    (∀ f, (new_from_slice_node_features []).coefficients f = some 0) ∧
      (new_from_slice_node_features []).min = EF.fin 0 ∧
      (new_from_slice_node_features []).avg_linear = 0 ∧
      (new_from_slice_node_features []).avg_log2 = LogVal.negInf := by
  refine ⟨fun f => ?_, by decide, ?_, by decide⟩
  · cases f <;> decide
  · have hv : Feature.variants.map
        (fun f => (featureNakamoto ([] : List NodeFeatures) f).1) =
        [0, 0, 0, 0, 0, 0] := by decide
    simp only [new_from_slice_node_features]
    rw [hv]
    norm_num [Feature.variants]

end NakamotoScore

namespace NakamotoScore

/-! Reflexivity of the score comparison. -/

theorem cmpFeaturesBelowAvg_refl (a : NakamotoScore) (L : List Feature) :
    cmpFeaturesBelowAvg a a L = .eq := by
  induction L with
  | nil => rfl
  | cons f rest ih => simp [cmpFeaturesBelowAvg, cmpQ_refl, ih]

theorem cmpScores_refl (a : NakamotoScore) : cmpScores a a = .eq := by
  simp [cmpScores, EF_cmp_refl, cmpN_refl, cmpOptN_refl, LogVal_cmp_refl,
    cmpQ_refl, cmpFeaturesBelowAvg_refl]

/-- Equality of all five fields gives equality of scores. -/
theorem score_ext (a b : NakamotoScore)
    (h1 : a.coefficients = b.coefficients)
    (h2 : a.controlled_nodes = b.controlled_nodes)
    (h3 : a.avg_linear = b.avg_linear) (h4 : a.avg_log2 = b.avg_log2)
    (h5 : a.min = b.min) : a = b := by
  cases a; cases b; simp_all

/-- Two constructor-built scores that are `PartialEq`-equal are equal as
values: the aggregates are derived from the maps. -/
theorem scoreEq_constructor (s1 s2 : List NodeFeatures)
    (h : scoreEq (new_from_slice_node_features s1)
      (new_from_slice_node_features s2) = true) :
    new_from_slice_node_features s1 = new_from_slice_node_features s2 := by
  simp only [scoreEq, Bool.and_eq_true] at h
  obtain ⟨hA, hB⟩ := h
  have hfn : ∀ f, featureNakamoto s1 f = featureNakamoto s2 f := by
    intro f
    have h1 := beq_iff_eq.mp (List.all_eq_true.mp hA f (Feature.mem_variants f))
    have h2 := beq_iff_eq.mp (List.all_eq_true.mp hB f (Feature.mem_variants f))
    simp only [new_from_slice_node_features] at h1 h2
    have e1 : (featureNakamoto s1 f).1 = (featureNakamoto s2 f).1 :=
      Nat.cast_inj.mp (Option.some.inj h1)
    have e2 : (featureNakamoto s1 f).2 = (featureNakamoto s2 f).2 :=
      Option.some.inj h2
    exact Prod.ext e1 e2
  simp only [new_from_slice_node_features, hfn]

/-! Concrete twelve-node slices used to probe the comparison. -/

/-- Build a `NodeFeatures` with one explicit value per feature. -/
def mkNF (np dc dco city country cont : String) : NodeFeatures :=
  ⟨fun f => match f with
    | .NodeProvider => some np
    | .DataCenter => some dc
    | .DataCenterOwner => some dco
    | .City => some city
    | .Country => some country
    | .Continent => some cont⟩

/-- Twelve nodes with per-feature coefficients `(1, 1, 4, 4, 4, 4)`:
one provider and one data center, and for the other four features one
value held by two nodes and ten singleton values. -/
def sliceC : List NodeFeatures :=
  [mkNF "x" "x" "p" "p" "p" "p",
   mkNF "x" "x" "p" "p" "p" "p",
   mkNF "x" "x" "q2" "q2" "q2" "q2",
   mkNF "x" "x" "q3" "q3" "q3" "q3",
   mkNF "x" "x" "q4" "q4" "q4" "q4",
   mkNF "x" "x" "q5" "q5" "q5" "q5",
   mkNF "x" "x" "q6" "q6" "q6" "q6",
   mkNF "x" "x" "q7" "q7" "q7" "q7",
   mkNF "x" "x" "q8" "q8" "q8" "q8",
   mkNF "x" "x" "q9" "q9" "q9" "q9",
   mkNF "x" "x" "q10" "q10" "q10" "q10",
   mkNF "x" "x" "q11" "q11" "q11" "q11"]

/-- Twelve nodes with per-feature coefficients `(1, 2, 2, 2, 2, 3)`:
one provider, four middle features with three values of four nodes each,
and a continent axis with six values of two nodes each. -/
def sliceD : List NodeFeatures :=
  [mkNF "x" "b0" "b0" "b0" "b0" "c0",
   mkNF "x" "b0" "b0" "b0" "b0" "c0",
   mkNF "x" "b0" "b0" "b0" "b0" "c1",
   mkNF "x" "b0" "b0" "b0" "b0" "c1",
   mkNF "x" "b1" "b1" "b1" "b1" "c2",
   mkNF "x" "b1" "b1" "b1" "b1" "c2",
   mkNF "x" "b1" "b1" "b1" "b1" "c3",
   mkNF "x" "b1" "b1" "b1" "b1" "c3",
   mkNF "x" "b2" "b2" "b2" "b2" "c4",
   mkNF "x" "b2" "b2" "b2" "b2" "c4",
   mkNF "x" "b2" "b2" "b2" "b2" "c5",
   mkNF "x" "b2" "b2" "b2" "b2" "c5"]

/-- Twelve nodes whose `City` axis has three values of four nodes each
(coefficient 2, controlled 8); every other axis as in `sliceF` below. -/
def sliceE : List NodeFeatures :=
  [mkNF "x" "x" "x" "e0" "g0" "h0",
   mkNF "x" "x" "x" "e0" "g0" "h1",
   mkNF "x" "x" "x" "e0" "g0" "h2",
   mkNF "x" "x" "x" "e0" "g0" "h3",
   mkNF "x" "x" "x" "e1" "g1" "h4",
   mkNF "x" "x" "x" "e1" "g1" "h5",
   mkNF "x" "x" "x" "e1" "g1" "h6",
   mkNF "x" "x" "x" "e1" "g1" "h7",
   mkNF "x" "x" "x" "e2" "g2" "h8",
   mkNF "x" "x" "x" "e2" "g2" "h9",
   mkNF "x" "x" "x" "e2" "g2" "h10",
   mkNF "x" "x" "x" "e2" "g2" "h11"]

/-- Twelve nodes whose `City` axis has four values of three nodes each
(coefficient 2, controlled 6); every other axis as in `sliceE`. -/
def sliceF : List NodeFeatures :=
  [mkNF "x" "x" "x" "f0" "g0" "h0",
   mkNF "x" "x" "x" "f0" "g0" "h1",
   mkNF "x" "x" "x" "f0" "g0" "h2",
   mkNF "x" "x" "x" "f1" "g0" "h3",
   mkNF "x" "x" "x" "f1" "g1" "h4",
   mkNF "x" "x" "x" "f1" "g1" "h5",
   mkNF "x" "x" "x" "f2" "g1" "h6",
   mkNF "x" "x" "x" "f2" "g1" "h7",
   mkNF "x" "x" "x" "f2" "g2" "h8",
   mkNF "x" "x" "x" "f3" "g2" "h9",
   mkNF "x" "x" "x" "f3" "g2" "h10",
   mkNF "x" "x" "x" "f3" "g2" "h11"]

/-- The score of `sliceC`, written with literal field values. -/
def scoreC_lit : NakamotoScore :=
  { coefficients := fun f => some (match f with
      | .NodeProvider => (1 : ℚ) | .DataCenter => 1 | _ => 4)
    controlled_nodes := fun f => some (match f with
      | .NodeProvider => 12 | .DataCenter => 12 | _ => 5)
    avg_linear := 3
    avg_log2 := .val 256
    min := .fin 1 }

/-- The score of `sliceD`, written with literal field values. -/
def scoreD_lit : NakamotoScore :=
  { coefficients := fun f => some (match f with
      | .NodeProvider => (1 : ℚ) | .Continent => 3 | _ => 2)
    controlled_nodes := fun f => some (match f with
      | .NodeProvider => 12 | .Continent => 6 | _ => 8)
    avg_linear := 2
    avg_log2 := .val 48
    min := .fin 1 }

/-- The score of `sliceE`, written with literal field values. -/
def scoreE_lit : NakamotoScore :=
  { coefficients := fun f => some (match f with
      | .City => (2 : ℚ) | .Country => 2 | .Continent => 5 | _ => 1)
    controlled_nodes := fun f => some (match f with
      | .City => 8 | .Country => 8 | .Continent => 5 | _ => 12)
    avg_linear := 2
    avg_log2 := .val 20
    min := .fin 1 }

/-- The score of `sliceF`, written with literal field values. -/
def scoreF_lit : NakamotoScore :=
  { coefficients := fun f => some (match f with
      | .City => (2 : ℚ) | .Country => 2 | .Continent => 5 | _ => 1)
    controlled_nodes := fun f => some (match f with
      | .City => 6 | .Country => 8 | .Continent => 5 | _ => 12)
    avg_linear := 2
    avg_log2 := .val 20
    min := .fin 1 }

theorem scoreC_eq : new_from_slice_node_features sliceC = scoreC_lit := by
  refine score_ext _ _ (funext fun f => ?_) (funext fun f => ?_) ?_ ?_ ?_
  · cases f <;> decide
  · cases f <;> decide
  · have hv : Feature.variants.map (fun f => (featureNakamoto sliceC f).1) =
        [1, 1, 4, 4, 4, 4] := by decide
    simp only [new_from_slice_node_features]
    rw [hv]
    norm_num [Feature.variants, scoreC_lit]
  · decide
  · decide

theorem scoreD_eq : new_from_slice_node_features sliceD = scoreD_lit := by
  refine score_ext _ _ (funext fun f => ?_) (funext fun f => ?_) ?_ ?_ ?_
  · cases f <;> decide
  · cases f <;> decide
  · have hv : Feature.variants.map (fun f => (featureNakamoto sliceD f).1) =
        [1, 2, 2, 2, 2, 3] := by decide
    simp only [new_from_slice_node_features]
    rw [hv]
    norm_num [Feature.variants, scoreD_lit]
  · decide
  · decide

theorem scoreE_eq : new_from_slice_node_features sliceE = scoreE_lit := by
  refine score_ext _ _ (funext fun f => ?_) (funext fun f => ?_) ?_ ?_ ?_
  · cases f <;> decide
  · cases f <;> decide
  · have hv : Feature.variants.map (fun f => (featureNakamoto sliceE f).1) =
        [1, 1, 1, 2, 2, 5] := by decide
    simp only [new_from_slice_node_features]
    rw [hv]
    norm_num [Feature.variants, scoreE_lit]
  · decide
  · decide

theorem scoreF_eq : new_from_slice_node_features sliceF = scoreF_lit := by
  refine score_ext _ _ (funext fun f => ?_) (funext fun f => ?_) ?_ ?_ ?_
  · cases f <;> decide
  · cases f <;> decide
  · have hv : Feature.variants.map (fun f => (featureNakamoto sliceF f).1) =
        [1, 1, 1, 2, 2, 5] := by decide
    simp only [new_from_slice_node_features]
    rw [hv]
    norm_num [Feature.variants, scoreF_lit]
  · decide
  · decide

end NakamotoScore

namespace NakamotoScore

/-- C1 counterexample: `sliceE` and `sliceF` produce scores with identical
coefficients but different `controlled_nodes` on the non-critical `City`
feature; the comparison returns `Equal` while `PartialEq` equality is
false, so none of `a < b`, `a = b`, `a > b` holds. -/
theorem c1_counterexample :
    cmpScores (new_from_slice_node_features sliceE)
        (new_from_slice_node_features sliceF) = .eq ∧
      scoreEq (new_from_slice_node_features sliceE)
        (new_from_slice_node_features sliceF) = false := by
  rw [scoreE_eq, scoreF_eq]
  exact ⟨by decide, by decide⟩

/-- C1 (amended): the NaN-free comparison always returns an answer
(exactly one of `Less`, `Equal`, `Greater` as its value), and equal
constructor-built scores compare `Equal`; however the comparison is not
antisymmetric — `sliceC` and `sliceD` both compare strictly greater than
one another, because the below-average count of step 2 is taken against
`self.avg_linear` on both sides — and `Equal` does not imply equality
(see the counterexample). -/
theorem c1_amended :
    (∀ a b : NakamotoScore,
      cmpScores a b = .lt ∨ cmpScores a b = .eq ∨ cmpScores a b = .gt) ∧
      (∀ s1 s2 : List NodeFeatures,
        scoreEq (new_from_slice_node_features s1)
          (new_from_slice_node_features s2) = true →
        cmpScores (new_from_slice_node_features s1)
          (new_from_slice_node_features s2) = .eq) ∧
      cmpScores (new_from_slice_node_features sliceC)
        (new_from_slice_node_features sliceD) = .gt ∧
      cmpScores (new_from_slice_node_features sliceD)
        (new_from_slice_node_features sliceC) = .gt := by
  refine ⟨?_, ?_, ?_, ?_⟩
  · intro a b
    cases cmpScores a b
    · exact Or.inl rfl
    · exact Or.inr (Or.inl rfl)
    · exact Or.inr (Or.inr rfl)
  · intro s1 s2 h
    rw [scoreEq_constructor s1 s2 h]
    exact cmpScores_refl _
  · rw [scoreC_eq, scoreD_eq]; decide
  · rw [scoreC_eq, scoreD_eq]; decide

/-- C1 witness: two equal constructor-built scores compare `Equal`. -/
theorem c1_witness :
    cmpScores (new_from_slice_node_features [])
      (new_from_slice_node_features []) = .eq :=
  c1_amended.2.1 [] [] (by decide)

end NakamotoScore

namespace NakamotoScore

/-! The critical control power (claim C8). -/

/-- Membership in the entry list of the `coefficients` map. -/
theorem mem_coeffEntries (s : NakamotoScore) (e : Feature × ℚ) :
    e ∈ s.coeffEntries ↔ s.coefficients e.1 = some e.2 := by
  obtain ⟨f, q⟩ := e
  simp only [coeffEntries, List.mem_filterMap]
  constructor
  · rintro ⟨g, -, hg⟩
    obtain ⟨v, hv, heq⟩ := Option.map_eq_some'.mp hg
    injection heq with h1 h2
    subst h1; subst h2
    exact hv
  · intro h
    exact ⟨f, Feature.mem_variants f, by simp [h]⟩

/-- The fold of `minStep` from a `some` accumulator returns an entry that
is the accumulator or a list member, and whose value is a lower bound of
both. -/
theorem minStep_foldl_spec (L : List (Feature × ℚ)) :
    ∀ m : Feature × ℚ,
      ∃ r, L.foldl minStep (some m) = some r ∧ (r = m ∨ r ∈ L) ∧
        r.2 ≤ m.2 ∧ ∀ e ∈ L, r.2 ≤ e.2 := by
  induction L with
  | nil => intro m; exact ⟨m, rfl, Or.inl rfl, le_refl _, by simp⟩
  | cons e L ih =>
    intro m
    simp only [List.foldl_cons]
    by_cases h : e.2 < m.2
    · obtain ⟨r, hr, hmem, hle, hall⟩ := ih e
      refine ⟨r, by simpa [minStep, h] using hr, ?_, ?_, ?_⟩
      · rcases hmem with rfl | hm
        · exact Or.inr (by simp)
        · exact Or.inr (by simp [hm])
      · exact le_trans hle (le_of_lt h)
      · intro x hx
        rcases List.mem_cons.mp hx with rfl | hx
        · exact hle
        · exact hall x hx
    · have hme : m.2 ≤ e.2 := le_of_not_lt h
      obtain ⟨r, hr, hmem, hle, hall⟩ := ih m
      refine ⟨r, by simpa [minStep, h] using hr, ?_, hle, ?_⟩
      · rcases hmem with rfl | hm
        · exact Or.inl rfl
        · exact Or.inr (by simp [hm])
      · intro x hx
        rcases List.mem_cons.mp hx with rfl | hx
        · exact le_trans hle hme
        · exact hall x hx

/-- On a nonempty entry list, `minEntry` returns a member whose value is
minimal. -/
theorem minEntry_spec (L : List (Feature × ℚ)) (hne : L ≠ []) :
    ∃ r, minEntry L = some r ∧ r ∈ L ∧ ∀ e ∈ L, r.2 ≤ e.2 := by
  cases L with
  | nil => exact absurd rfl hne
  | cons e L =>
    obtain ⟨r, hr, hmem, hle, hall⟩ := minStep_foldl_spec L e
    refine ⟨r, ?_, ?_, ?_⟩
    · simpa [minEntry, minStep] using hr
    · rcases hmem with rfl | hm
      · simp
      · simp [hm]
    · intro x hx
      rcases List.mem_cons.mp hx with rfl | hx
      · exact hle
      · exact hall x hx

end NakamotoScore

namespace NakamotoScore

/-- Filtering the coefficient entries by `value ≤ m`, when `m` is a lower
bound of all values, selects exactly the features whose coefficient is
`m`. -/
theorem filter_entries_map (coeffs : Feature → Option ℚ)
    (g : Feature → Nat) (m : ℚ)
    (hmin : ∀ f v, coeffs f = some v → m ≤ v) :
    ∀ L : List Feature,
      ((L.filterMap (fun f => (coeffs f).map (fun q => (f, q)))).filter
        (fun e => e.2 ≤ m)).map (fun e => g e.1) =
      (L.filter (fun f => coeffs f == some m)).map g := by
  intro L
  induction L with
  | nil => rfl
  | cons f L ih =>
    cases h : coeffs f with
    | none => simp [List.filterMap_cons, h, List.filter_cons, ih]
    | some v =>
      by_cases hv : v ≤ m
      · have hvm : v = m := le_antisymm hv (hmin f v h)
        subst hvm
        simp [List.filterMap_cons, h, List.filter_cons, ih]
      · have hvm : ¬(v = m) := fun e => hv (le_of_eq e)
        simp [List.filterMap_cons, h, List.filter_cons, ih, hv, hvm]

/-- C8: for a score whose `coefficients` map is nonempty (and NaN-free,
which the value domain guarantees), `control_power_critical_features`
returns `Some` of the sum of `controlled_nodes` over exactly the features
whose coefficient equals the minimum coefficient `m`, a feature absent
from `controlled_nodes` contributing 0; and it returns `None` exactly
when the `coefficients` map is empty. -/
theorem c8_control_power :
    (∀ (s : NakamotoScore) (m : ℚ),
      (∃ g, s.coefficients g = some m) →
      (∀ f v, s.coefficients f = some v → m ≤ v) →
      s.control_power_critical_features =
        some (((Feature.variants.filter
            (fun f => s.coefficients f == some m)).map
          (fun f => (s.controlled_nodes f).getD 0)).sum)) ∧
      (∀ s : NakamotoScore,
        s.control_power_critical_features = none ↔
          ∀ f, s.coefficients f = none) := by
  constructor
  · rintro s m ⟨g, hg⟩ hmin
    have hgm : (g, m) ∈ s.coeffEntries := (mem_coeffEntries s (g, m)).mpr hg
    have hne : s.coeffEntries ≠ [] := by
      intro h; rw [h] at hgm; exact absurd hgm (List.not_mem_nil _)
    obtain ⟨r, hr, hrmem, hrall⟩ := minEntry_spec _ hne
    have hrm : r.2 = m :=
      le_antisymm (hrall (g, m) hgm)
        (hmin r.1 r.2 ((mem_coeffEntries s r).mp hrmem))
    have hfe := filter_entries_map s.coefficients
      (fun f => (s.controlled_nodes f).getD 0) m hmin Feature.variants
    simp only [control_power_critical_features, hr, hrm, coeffEntries] at *
    rw [hfe]
  · intro s
    constructor
    · intro h f
      cases hcf : s.coefficients f with
      | none => rfl
      | some v =>
        have hmem : (f, v) ∈ s.coeffEntries :=
          (mem_coeffEntries s (f, v)).mpr hcf
        have hne : s.coeffEntries ≠ [] := by
          intro hE; rw [hE] at hmem; exact absurd hmem (List.not_mem_nil _)
        obtain ⟨r, hr, -, -⟩ := minEntry_spec _ hne
        simp [control_power_critical_features, hr] at h
    · intro h
      have hE : s.coeffEntries = [] := by
        simp [coeffEntries, Feature.variants, h]
      simp [control_power_critical_features, hE, minEntry]

/-- C8 witness: the score of the empty slice has minimum coefficient 0 on
all six features, and the critical control power evaluates accordingly. -/
theorem c8_witness :
    (new_from_slice_node_features []).control_power_critical_features =
      some (((Feature.variants.filter
          (fun f => (new_from_slice_node_features []).coefficients f ==
            some 0)).map
        (fun f => ((new_from_slice_node_features
          []).controlled_nodes f).getD 0)).sum) :=
  c8_control_power.1 (new_from_slice_node_features []) 0
    ⟨Feature.NodeProvider, by decide⟩
    (fun f v h => by
      have h0 : (new_from_slice_node_features []).coefficients f = some 0 := by
        cases f <;> decide
      rw [h0] at h
      exact le_of_eq (Option.some.inj h))

end NakamotoScore

namespace NakamotoScore

/-! The default coefficient in the per-feature comparison stage
(claim C10). -/

/-- A score with one coefficient entry replaced. -/
def setCoeff (s : NakamotoScore) (f : Feature) (v : Option ℚ) :
    NakamotoScore :=
  { s with coefficients := fun g => if g = f then v else s.coefficients g }

/-- A score whose maps are empty. -/
def emptyScore : NakamotoScore :=
  { coefficients := fun _ => none
    controlled_nodes := fun _ => none
    avg_linear := 0
    avg_log2 := .negInf
    min := .negInf }

/-- C10: in the per-feature stage of the comparison a missing coefficient
entry is read as `1.0` (`unwrap_or(&1.0)`): filling the missing entry of
either side with `1` leaves the stage's result unchanged; and the default
is unreachable for constructor-built scores, which populate every
feature. -/
theorem c10_missing_coefficient_default :
    (∀ (s o : NakamotoScore) (f : Feature) (L : List Feature),
      s.coefficients f = none →
      cmpFeaturesBelowAvg (setCoeff s f (some 1)) o L =
        cmpFeaturesBelowAvg s o L) ∧
      (∀ (s o : NakamotoScore) (f : Feature) (L : List Feature),
        o.coefficients f = none →
        cmpFeaturesBelowAvg s (setCoeff o f (some 1)) L =
          cmpFeaturesBelowAvg s o L) ∧
      (∀ (slice : List NodeFeatures) (f : Feature),
        (new_from_slice_node_features slice).coefficients f ≠ none) := by
  refine ⟨?_, ?_, ?_⟩
  · intro s o f L h
    induction L with
    | nil => rfl
    | cons g L ih =>
      have hc : ((setCoeff s f (some 1)).coefficients g).getD 1 =
          (s.coefficients g).getD 1 := by
        by_cases hg : g = f
        · subst hg; simp [setCoeff, h]
        · simp [setCoeff, hg]
      have ha : (setCoeff s f (some 1)).avg_linear = s.avg_linear := rfl
      simp only [cmpFeaturesBelowAvg, hc, ha, ih]
  · intro s o f L h
    induction L with
    | nil => rfl
    | cons g L ih =>
      have hc : ((setCoeff o f (some 1)).coefficients g).getD 1 =
          (o.coefficients g).getD 1 := by
        by_cases hg : g = f
        · subst hg; simp [setCoeff, h]
        · simp [setCoeff, hg]
      simp only [cmpFeaturesBelowAvg, hc, ih]
  · intro slice f
    simp [new_from_slice_node_features]

/-- C10 witness: filling a missing `City` coefficient with 1 does not
change the per-feature comparison stage. -/
theorem c10_witness :
    cmpFeaturesBelowAvg (setCoeff emptyScore .City (some 1)) emptyScore
        Feature.variants =
      cmpFeaturesBelowAvg emptyScore emptyScore Feature.variants :=
  c10_missing_coefficient_default.1 emptyScore emptyScore .City
    Feature.variants rfl

/-! The change engine (claim C9). -/

/-- Modelled from the spec: the change engine's `optimize` lives in the
repository's `network` module, which is not among the sources under
verification (only its tests and its request types are).  The following
definitions model spec section 4.5: the greedy best single swap, keeping
the first candidate under the stable tie-break. -/
def bestCandidate (cands : List (List Node × List Node)) :
    Option (List Node × List Node) :=
  cands.foldl
    (fun acc c =>
      match acc with
      | none => some c
      | some b =>
        if cmpScores (new_from_nodes c.1) (new_from_nodes b.1) = .gt then
          some c
        else some b)
    none

/-- Modelled from the spec: all single-swap candidates — remove one
non-pinned member, add one non-excluded pool node. -/
def swapCandidates (nodes pool : List Node) (pins exclusions : List Nat) :
    List (List Node × List Node) :=
  (nodes.filter (fun r => !(pins.contains r.id))).flatMap
    (fun r =>
      (pool.filter (fun a => !(exclusions.contains a.id))).map
        (fun a =>
          (nodes.eraseP (fun n => n.id == r.id) ++ [a],
            pool.eraseP (fun n => n.id == a.id))))

/-- Modelled from the spec: one committed step of the greedy schedule. -/
def optimizeStep (st : List Node × List Node) (pins exclusions : List Nat) :
    List Node × List Node :=
  match bestCandidate (swapCandidates st.1 st.2 pins exclusions) with
  | none => st
  | some c => c

/-- Modelled from the spec: the greedy schedule commits up to `m` swaps. -/
def optimizeGreedy (nodes pool : List Node) (pins exclusions : List Nat) :
    Nat → List Node × List Node
  | 0 => (nodes, pool)
  | m + 1 =>
    optimizeStep (optimizeGreedy nodes pool pins exclusions m) pins exclusions

/-- Modelled from the spec: `optimize` — run the greedy schedule, and if
the final score is not strictly greater than the baseline, return a no-op
change (spec section 4.5, step 5). -/
def subnet_optimize (nodes pool : List Node) (pins exclusions : List Nat)
    (m : Nat) : List Node :=
  let s0 := new_from_nodes nodes
  let final := (optimizeGreedy nodes pool pins exclusions m).1
  if cmpScores (new_from_nodes final) s0 = .gt then final else nodes

/-- C9: `optimize` never returns a subnet whose score compares strictly
worse than the input's, and when the candidate produced by the search does
not strictly improve the baseline score the membership is returned
unchanged. -/
theorem c9_improvement_monotonicity :
    (∀ (nodes pool : List Node) (pins exclusions : List Nat) (m : Nat),
      cmpScores
        (new_from_nodes (subnet_optimize nodes pool pins exclusions m))
        (new_from_nodes nodes) ≠ .lt) ∧
      (∀ (nodes pool : List Node) (pins exclusions : List Nat) (m : Nat),
        cmpScores
          (new_from_nodes (optimizeGreedy nodes pool pins exclusions m).1)
          (new_from_nodes nodes) ≠ .gt →
        subnet_optimize nodes pool pins exclusions m = nodes) := by
  constructor
  · intro nodes pool pins exclusions m
    by_cases h : cmpScores
        (new_from_nodes (optimizeGreedy nodes pool pins exclusions m).1)
        (new_from_nodes nodes) = .gt
    · simp only [subnet_optimize, if_pos h]
      rw [h]
      decide
    · simp only [subnet_optimize, if_neg h]
      rw [cmpScores_refl]
      decide
  · intro nodes pool pins exclusions m h
    simp only [subnet_optimize, if_neg h]

/-- C9 witness: with an empty pool and zero budget the no-op branch is
taken. -/
theorem c9_witness : subnet_optimize [] [] [] [] 0 = [] :=
  c9_improvement_monotonicity.2 [] [] [] [] 0 (by
    show cmpScores (new_from_nodes []) (new_from_nodes []) ≠ .gt
    rw [cmpScores_refl]
    decide)

end NakamotoScore
